import Mathlib

/-!
Verification of the description-copy core of `bq_utils`
(`bq_utils/bigquery_description_manager.py`).

The data model follows the source: a BigQuery `SchemaField` carries a name,
a field type, a mode, a description and a list of nested sub-fields.  The
dictionary (API) representation that `_get_new_schema` works on is modelled
by the same tree type: a missing `fields` key corresponds to an empty child
list, and the `to_api_repr` / `from_api_repr` round-trip of the external
client library is modelled as the identity on this data (the spec treats
type and mode as opaque strings preserved verbatim, and the client library
as an external collaborator).

Python dictionaries of path/description pairs are modelled as association
lists with Python semantics: assignment to an existing key overwrites it in
place, assignment to a fresh key appends it.

The BigQuery client is modelled as a map from full table ids to tables
(`none` meaning the fetch raises NotFound, carried as the failing id in the
`Except` error), and each orchestration entry point returns, next to its
result, the trace of client calls it performed.
-/

/-- A schema field, mirroring `google.cloud.bigquery.schema.SchemaField`:
name, field type, mode, description (empty string for an absent
description) and nested sub-fields. -/
inductive SchemaField : Type where
  | mk : String → String → String → String → List SchemaField → SchemaField

/-- Field name. -/
def SchemaField.name : SchemaField → String
  | .mk n _ _ _ _ => n

/-- Field type (opaque string). -/
def SchemaField.field_type : SchemaField → String
  | .mk _ t _ _ _ => t

/-- Field mode (opaque string). -/
def SchemaField.mode : SchemaField → String
  | .mk _ _ m _ _ => m

/-- Field description; the empty string models a missing description. -/
def SchemaField.description : SchemaField → String
  | .mk _ _ _ d _ => d

/-- Nested sub-fields; the empty list models a missing `fields` key. -/
def SchemaField.fields : SchemaField → List SchemaField
  | .mk _ _ _ _ fs => fs

mutual

/-- Number of fields in a field's subtree, the field itself included. -/
def SchemaField.size : SchemaField → Nat
  | .mk _ _ _ _ fs => 1 + sizeFields fs

/-- Number of fields in the subtrees of a list of fields. -/
def sizeFields : List SchemaField → Nat
  | [] => 0
  | f :: rest => f.size + sizeFields rest

end

/-- Python dictionary lookup (`descriptions[name]` guarded by
`name in descriptions`) on the association-list model. -/
def lookupKV (m : List (String × String)) (k : String) : Option String :=
  (m.find? (fun p => p.1 == k)).map (fun p => p.2)

/-- Python dictionary assignment `m[k] = v`: overwrite in place when the key
is present, append otherwise. -/
def insertKV (m : List (String × String)) (k v : String) : List (String × String) :=
  if m.any (fun p => p.1 == k) then
    m.map (fun p => if p.1 == k then (k, v) else p)
  else
    m ++ [(k, v)]

/-- Total size of the pending-fields stack of the flattening loop. -/
def stackSize : List (String × SchemaField) → Nat
  | [] => 0
  | p :: rest => p.2.size + stackSize rest

theorem stackSize_append (l l' : List (String × SchemaField)) :
    stackSize (l ++ l') = stackSize l + stackSize l' := by
  induction l with
  | nil => simp [stackSize]
  | cons p rest ih => simp [stackSize, ih]; omega

theorem stackSize_map (g : SchemaField → String) (fs : List SchemaField) :
    stackSize (fs.map (fun nf => (g nf, nf))) = sizeFields fs := by
  induction fs with
  | nil => rfl
  | cons f rest ih => simp [stackSize, sizeFields, ih]

/-- The `while fields_to_process:` loop of `_get_descriptions_from_schema`
(source lines 57–61): pop the last pending (qualified name, field) pair,
record its description under its qualified name, and push its nested
fields with dotted qualified names. -/
def processFields (stack : List (String × SchemaField)) (descriptions : List (String × String)) :
    List (String × String) :=
  match h : stack.getLast? with
  | none => descriptions
  | some field =>
      processFields
        (stack.dropLast ++ field.2.fields.map (fun nf => (field.1 ++ "." ++ nf.name, nf)))
        (insertKV descriptions field.1 field.2.description)
termination_by stackSize stack
decreasing_by
  have hne : stack ≠ [] := by
    intro hnil; rw [hnil] at h; simp at h
  have hdecomp : stack.dropLast ++ [stack.getLast hne] = stack := List.dropLast_append_getLast hne
  have hlast : stack.getLast hne = field := by
    have hq := List.getLast?_eq_getLast stack hne
    rw [hq] at h; exact Option.some.inj h
  rw [stackSize_append, stackSize_map]
  calc stackSize stack.dropLast + sizeFields field.2.fields
      < stackSize stack.dropLast + field.2.size := by
        cases field with
        | mk a b => cases b with
          | mk n t m d fs => simp [SchemaField.size, SchemaField.fields]
    _ = stackSize stack := by
        conv_rhs => rw [← hdecomp]
        rw [stackSize_append, hlast]
        simp [stackSize]

theorem processFields_nil (descriptions : List (String × String)) :
    processFields [] descriptions = descriptions := by
  rw [processFields.eq_def]
  rfl

theorem processFields_pop (stack : List (String × SchemaField))
    (descriptions : List (String × String)) (name : String) (f : SchemaField)
    (h : stack.getLast? = some (name, f)) :
    processFields stack descriptions =
      processFields (stack.dropLast ++ f.fields.map (fun nf => (name ++ "." ++ nf.name, nf)))
        (insertKV descriptions name f.description) := by
  rw [processFields.eq_def, h]

/-- Lean model of `_get_descriptions_from_schema` (source lines 49–62):
flatten a schema into a dictionary mapping each field's fully-qualified
dotted name to its description. -/
def _get_descriptions_from_schema (schema : List SchemaField) : List (String × String) :=
  processFields (schema.map (fun column => (column.name, column))) []

mutual

/-- Lean model of `_update_field` (source lines 64–77): if the qualified
name has a non-empty entry in the descriptions dictionary, replace the
field's description with it; recurse into the nested fields with dotted
qualified names.  The Python function mutates the dict representation in
place; the model returns the updated field. -/
def _update_field (descriptions : List (String × String)) (field : SchemaField)
    (name : String) : SchemaField :=
  match field with
  | .mk n t m d fs =>
      .mk n t m
        (match lookupKV descriptions name with
          | some v => if v = "" then d else v
          | none => d)
        (updateNestedFields descriptions name fs)

/-- The `for nested_field in field['fields']` loop of `_update_field`
(source lines 74–77). -/
def updateNestedFields (descriptions : List (String × String)) (name : String) :
    List SchemaField → List SchemaField
  | [] => []
  | nf :: rest =>
      _update_field descriptions nf (name ++ "." ++ nf.name) ::
        updateNestedFields descriptions name rest

end

/-- Lean model of `_get_new_schema` (source lines 79–90): rebuild the
schema with `_update_field` applied to every top-level field, starting
from the field's own name as qualified name. -/
def _get_new_schema (schema : List SchemaField) (descriptions : List (String × String)) :
    List SchemaField :=
  schema.map (fun field => _update_field descriptions field field.name)

/-- The dictionary comprehension `{row[0]: row[1] for row in csv_reader}` of
`upload_fields_descriptions_from_csv` (source line 100), on the parsed
two-column rows of the file; every row is processed, in file order. -/
def descriptionsFromCsvRows (rows : List (String × String)) : List (String × String) :=
  rows.foldl (fun m row => insertKV m row.1 row.2) []

/-- A stored table: full table id and schema (the only attributes the
program reads or writes). -/
structure Table where
  table_id : String
  schema : List SchemaField

/-- The BigQuery client, modelled by its stored tables; `none` models a
`get_table` call that raises NotFound. -/
structure Client where
  tables : String → Option Table

/-- One call performed against the client. -/
inductive ApiCall : Type where
  | get_table (full_table_id : String)
  | update_table (table : Table) (attrs : List String)

/-- Lean model of `_update_table` (source lines 37–47): fetch the target
table, replace its schema via `_get_new_schema`, and persist it with
`update_table(target_table, ['schema'])`.  Returns the result (the failing
table id on a NotFound fetch) together with the trace of client calls. -/
def _update_table (bq_client : Client) (target_full_table_id : String)
    (descriptions : List (String × String)) : Except String Unit × List ApiCall :=
  match bq_client.tables target_full_table_id with
  | none => (Except.error target_full_table_id, [ApiCall.get_table target_full_table_id])
  | some target_table =>
      let updated : Table :=
        { target_table with schema := _get_new_schema target_table.schema descriptions }
      (Except.ok (),
        [ApiCall.get_table target_full_table_id, ApiCall.update_table updated ["schema"]])

/-- Lean model of `copy_field_descriptions` (source lines 25–35): fetch the
source table, flatten its descriptions, then update the target table. -/
def copy_field_descriptions (bq_client : Client)
    (source_full_table_id target_full_table_id : String) :
    Except String Unit × List ApiCall :=
  match bq_client.tables source_full_table_id with
  | none => (Except.error source_full_table_id, [ApiCall.get_table source_full_table_id])
  | some source_table =>
      let descriptions := _get_descriptions_from_schema source_table.schema
      let r := _update_table bq_client target_full_table_id descriptions
      (r.1, ApiCall.get_table source_full_table_id :: r.2)

/-- Lean model of `upload_fields_descriptions_from_csv` (source lines
92–101): build the descriptions dictionary from the parsed rows of the
file and update the target table.  File reading itself is external; the
model receives the parsed two-column rows. -/
def upload_fields_descriptions_from_csv (bq_client : Client) (rows : List (String × String))
    (target_full_table_id : String) : Except String Unit × List ApiCall :=
  _update_table bq_client target_full_table_id (descriptionsFromCsvRows rows)

/-- Whether a client call is a persist (`update_table`) call. -/
def isUpdateCall : ApiCall → Bool
  | .update_table _ _ => true
  | .get_table _ => false

/-- Stored state of the client after a trace of calls: `get_table` reads,
`update_table` replaces the stored table under its id. -/
def applyCalls : Client → List ApiCall → Client
  | c, [] => c
  | c, ApiCall.get_table _ :: rest => applyCalls c rest
  | c, ApiCall.update_table t _ :: rest =>
      applyCalls { tables := fun id => if id = t.table_id then some t else c.tables id } rest

/-- Dotted qualified path of a chain of field names (root fields: own name;
nested fields: parent path, separator, own name), per spec section 3. -/
def joinPath : List String → String
  | [] => ""
  | [c] => c
  | c :: cs => c ++ "." ++ joinPath cs

/-- Navigate a field tree along a chain of field names: the field at
qualified path `joinPath chain`, when it exists. -/
def findField (fs : List SchemaField) : List String → Option SchemaField
  | [] => none
  | [c] => fs.find? (fun f => f.name == c)
  | c :: cs =>
      match fs.find? (fun f => f.name == c) with
      | none => none
      | some f => findField f.fields cs

mutual

/-- Written after the spec of the Flattener output (spec section 4.1): one
entry per field of the subtree, keyed by dotted qualified path, valued by
the field's raw description.  `path` is the qualified path of the field
itself. -/
def specFieldEntries (path : String) : SchemaField → List (String × String)
  | .mk _ _ _ d fs => (path, d) :: specFieldsEntries path fs

/-- Entries of the subtrees of the children of a field whose qualified path
is `path`. -/
def specFieldsEntries (path : String) : List SchemaField → List (String × String)
  | [] => []
  | f :: rest => specFieldEntries (path ++ "." ++ f.name) f ++ specFieldsEntries path rest

end

/-- Written after the spec of the Flattener output (spec section 4.1):
the (qualified path, description) entries of every field at every depth of
a schema. -/
def specSchemaEntries : List SchemaField → List (String × String)
  | [] => []
  | f :: rest => specFieldEntries f.name f ++ specSchemaEntries rest

/-- Qualified paths of all fields of a schema, at every depth. -/
def schemaPaths (schema : List SchemaField) : List String :=
  (specSchemaEntries schema).map Prod.fst

mutual

/-- A field with every description in its subtree blanked: the shape of the
field (name, type, mode, children structure). -/
def eraseDescription : SchemaField → SchemaField
  | .mk n t m _ fs => .mk n t m "" (eraseDescriptions fs)

/-- Shapes of a list of fields. -/
def eraseDescriptions : List SchemaField → List SchemaField
  | [] => []
  | f :: rest => eraseDescription f :: eraseDescriptions rest

end

/-- Mutual structural induction over a field and a list of fields. -/
theorem schema_mutual_induction (P : SchemaField → Prop) (Q : List SchemaField → Prop)
    (hmk : ∀ n t m d fs, Q fs → P (SchemaField.mk n t m d fs))
    (hnil : Q [])
    (hcons : ∀ f fs, P f → Q fs → Q (f :: fs)) :
    (∀ f, P f) ∧ (∀ fs, Q fs) := by
  have key : ∀ bound : Nat, (∀ f : SchemaField, f.size ≤ bound → P f) ∧
      (∀ fs : List SchemaField, sizeFields fs ≤ bound → Q fs) := by
    intro bound
    induction bound with
    | zero =>
        constructor
        · intro f hf
          cases f with
          | mk n t m d fs => simp [SchemaField.size] at hf
        · intro fs hfs
          cases fs with
          | nil => exact hnil
          | cons f rest =>
              cases f with
              | mk n t m d cfs => simp [sizeFields, SchemaField.size] at hfs
    | succ bound ih =>
        have hfield : ∀ f : SchemaField, f.size ≤ bound + 1 → P f := by
          intro f hf
          cases f with
          | mk n t m d fs =>
              apply hmk
              apply ih.2
              simp [SchemaField.size] at hf
              omega
        constructor
        · exact hfield
        · intro fs
          induction fs with
          | nil => intro _; exact hnil
          | cons f rest ihrest =>
              intro hfs
              simp [sizeFields] at hfs
              have hsz : 1 ≤ f.size := by
                cases f with
                | mk n t m d cfs => simp [SchemaField.size]
              apply hcons
              · exact hfield f (by omega)
              · exact ihrest (by omega)
  constructor
  · intro f; exact (key f.size).1 f le_rfl
  · intro fs; exact (key (sizeFields fs)).2 fs le_rfl

theorem lookupKV_eq_none_iff (m : List (String × String)) (k : String) :
    lookupKV m k = none ↔ k ∉ m.map Prod.fst := by
  unfold lookupKV
  constructor
  · intro h hk
    rw [List.mem_map] at hk
    obtain ⟨p, hp, hpk⟩ := hk
    have hfind : (m.find? (fun q => q.1 == k)).isSome = true :=
      List.find?_isSome.mpr ⟨p, hp, by simp [hpk]⟩
    cases hfs : m.find? (fun q => q.1 == k) with
    | none => rw [hfs] at hfind; simp at hfind
    | some q => rw [hfs] at h; simp at h
  · intro h
    cases hfs : m.find? (fun q => q.1 == k) with
    | none => simp [hfs]
    | some q =>
        have hq := List.find?_some hfs
        have hmem := List.mem_of_find?_eq_some hfs
        simp only [beq_iff_eq] at hq
        exact absurd (hq ▸ List.mem_map_of_mem Prod.fst hmem) h

theorem mem_of_lookupKV_some (m : List (String × String)) (k v : String)
    (h : lookupKV m k = some v) : k ∈ m.map Prod.fst := by
  by_contra hmem
  rw [← lookupKV_eq_none_iff] at hmem
  rw [hmem] at h
  cases h

theorem lookupKV_isSome_iff (m : List (String × String)) (k : String) :
    (lookupKV m k).isSome = true ↔ k ∈ m.map Prod.fst := by
  cases hl : lookupKV m k with
  | none =>
      rw [lookupKV_eq_none_iff] at hl
      simp [hl]
  | some v =>
      simp [mem_of_lookupKV_some m k v hl]

theorem any_key_iff (m : List (String × String)) (k : String) :
    m.any (fun p => p.1 == k) = true ↔ k ∈ m.map Prod.fst := by
  rw [List.any_eq_true]
  simp only [List.mem_map, beq_iff_eq]

theorem insertKV_not_mem (m : List (String × String)) (k v : String)
    (h : k ∉ m.map Prod.fst) : insertKV m k v = m ++ [(k, v)] := by
  unfold insertKV
  have hany : ¬ (m.any (fun p => p.1 == k) = true) := by
    intro hc; exact h ((any_key_iff m k).mp hc)
  rw [if_neg hany]

theorem keys_insertKV (m : List (String × String)) (k v : String) :
    (insertKV m k v).map Prod.fst =
      if k ∈ m.map Prod.fst then m.map Prod.fst else m.map Prod.fst ++ [k] := by
  by_cases hk : k ∈ m.map Prod.fst
  · rw [if_pos hk]
    unfold insertKV
    rw [if_pos ((any_key_iff m k).mpr hk)]
    rw [List.map_map]
    apply List.map_congr_left
    intro p hp
    by_cases hpk : p.1 = k
    · simp [Function.comp, hpk]
    · simp [Function.comp, hpk]
  · rw [if_neg hk, insertKV_not_mem m k v hk]
    simp

theorem mem_keys_insertKV (m : List (String × String)) (k v a : String) :
    a ∈ (insertKV m k v).map Prod.fst ↔ a ∈ m.map Prod.fst ∨ a = k := by
  rw [keys_insertKV]
  by_cases hk : k ∈ m.map Prod.fst
  · rw [if_pos hk]
    constructor
    · exact Or.inl
    · intro h
      cases h with
      | inl h => exact h
      | inr h => exact h ▸ hk
  · rw [if_neg hk]
    simp [List.mem_append]

theorem nodup_keys_insertKV (m : List (String × String)) (k v : String)
    (h : (m.map Prod.fst).Nodup) : ((insertKV m k v).map Prod.fst).Nodup := by
  rw [keys_insertKV]
  by_cases hk : k ∈ m.map Prod.fst
  · rw [if_pos hk]; exact h
  · rw [if_neg hk]
    rw [List.nodup_append]
    exact ⟨h, List.nodup_singleton k, by simpa [List.disjoint_singleton] using hk⟩

theorem name_update_field (descriptions : List (String × String)) (f : SchemaField)
    (nm : String) : (_update_field descriptions f nm).name = f.name := by
  cases f with
  | mk n t m d fs => rfl

theorem fields_update_field (descriptions : List (String × String)) (f : SchemaField)
    (nm : String) :
    (_update_field descriptions f nm).fields = updateNestedFields descriptions nm f.fields := by
  cases f with
  | mk n t m d fs => rfl

theorem description_update_field (descriptions : List (String × String)) (f : SchemaField)
    (nm : String) :
    (_update_field descriptions f nm).description =
      match lookupKV descriptions nm with
      | some v => if v = "" then f.description else v
      | none => f.description := by
  cases f with
  | mk n t m d fs => rfl

theorem updateNestedFields_eq_map (descriptions : List (String × String)) (nm : String)
    (fs : List SchemaField) :
    updateNestedFields descriptions nm fs =
      fs.map (fun nf => _update_field descriptions nf (nm ++ "." ++ nf.name)) := by
  induction fs with
  | nil => rfl
  | cons f rest ih => simp [updateNestedFields, ih]

theorem find?_map_update (descriptions : List (String × String)) (g : SchemaField → String)
    (fs : List SchemaField) (c : String) :
    (fs.map (fun f => _update_field descriptions f (g f))).find? (fun f => f.name == c)
      = (fs.find? (fun f => f.name == c)).map (fun f => _update_field descriptions f (g f)) := by
  induction fs with
  | nil => rfl
  | cons f rest ih =>
      simp only [List.map_cons, List.find?_cons]
      rw [name_update_field]
      cases hc : (f.name == c) with
      | true => rfl
      | false => exact ih

theorem joinPath_cons (c : String) (cs : List String) (h : cs ≠ []) :
    joinPath (c :: cs) = c ++ "." ++ joinPath cs := by
  cases cs with
  | nil => exact absurd rfl h
  | cons b bs => rfl

theorem findField_updateNestedFields (descriptions : List (String × String))
    (fs : List SchemaField) (chain : List String) (pre : String) :
    findField (updateNestedFields descriptions pre fs) chain
      = (findField fs chain).map
          (fun f => _update_field descriptions f (pre ++ "." ++ joinPath chain)) := by
  induction chain generalizing fs pre with
  | nil => simp [findField]
  | cons c cs ih =>
      cases cs with
      | nil =>
          simp only [findField]
          rw [updateNestedFields_eq_map, find?_map_update]
          cases hf : fs.find? (fun f => f.name == c) with
          | none => rfl
          | some f =>
              have hname := List.find?_some hf
              simp only [beq_iff_eq] at hname
              simp [joinPath, hname]
      | cons b bs =>
          simp only [findField]
          rw [updateNestedFields_eq_map, find?_map_update]
          cases hf : fs.find? (fun f => f.name == c) with
          | none => rfl
          | some f =>
              have hname := List.find?_some hf
              simp only [beq_iff_eq] at hname
              simp only [Option.map_some']
              rw [fields_update_field, ih]
              rw [hname, joinPath_cons c (b :: bs) (by simp)]
              cases hff : findField f.fields (b :: bs) with
              | none => rfl
              | some x => simp [String.append_assoc]

theorem findField_get_new_schema (schema : List SchemaField)
    (descriptions : List (String × String)) (chain : List String) :
    findField (_get_new_schema schema descriptions) chain
      = (findField schema chain).map
          (fun f => _update_field descriptions f (joinPath chain)) := by
  cases chain with
  | nil => simp [findField]
  | cons c cs =>
      cases cs with
      | nil =>
          simp only [findField, _get_new_schema]
          rw [find?_map_update]
          cases hf : schema.find? (fun f => f.name == c) with
          | none => rfl
          | some f =>
              have hname := List.find?_some hf
              simp only [beq_iff_eq] at hname
              simp [joinPath, hname]
      | cons b bs =>
          simp only [findField, _get_new_schema]
          rw [find?_map_update]
          cases hf : schema.find? (fun f => f.name == c) with
          | none => rfl
          | some f =>
              have hname := List.find?_some hf
              simp only [beq_iff_eq] at hname
              simp only [Option.map_some']
              rw [fields_update_field, findField_updateNestedFields]
              rw [hname, joinPath_cons c (b :: bs) (by simp)]

theorem erase_update (M : List (String × String)) :
    (∀ f : SchemaField, ∀ nm,
        eraseDescription (_update_field M f nm) = eraseDescription f) ∧
    (∀ fs : List SchemaField, ∀ nm,
        eraseDescriptions (updateNestedFields M nm fs) = eraseDescriptions fs) := by
  apply schema_mutual_induction
    (fun f => ∀ nm, eraseDescription (_update_field M f nm) = eraseDescription f)
    (fun fs => ∀ nm, eraseDescriptions (updateNestedFields M nm fs) = eraseDescriptions fs)
  · intro n t m d fs hq nm
    simp [_update_field, eraseDescription, hq nm]
  · intro nm
    rfl
  · intro f fs hp hq nm
    simp [updateNestedFields, eraseDescriptions, hp, hq nm]

theorem update_field_idem (M : List (String × String)) :
    (∀ f : SchemaField, ∀ nm,
        _update_field M (_update_field M f nm) nm = _update_field M f nm) ∧
    (∀ fs : List SchemaField, ∀ nm,
        updateNestedFields M nm (updateNestedFields M nm fs) = updateNestedFields M nm fs) := by
  apply schema_mutual_induction
    (fun f => ∀ nm, _update_field M (_update_field M f nm) nm = _update_field M f nm)
    (fun fs => ∀ nm,
      updateNestedFields M nm (updateNestedFields M nm fs) = updateNestedFields M nm fs)
  · intro n t m d fs hq nm
    simp only [_update_field]
    cases hl : lookupKV M nm with
    | none => simp [hq nm]
    | some v =>
        by_cases hv : v = ""
        · simp [hv, hq nm]
        · simp [hv, hq nm]
  · intro nm
    rfl
  · intro f fs hp hq nm
    simp only [updateNestedFields]
    rw [name_update_field]
    simp [hp, hq nm]

theorem update_field_id_of_none (M : List (String × String)) :
    (∀ f : SchemaField, ∀ nm,
        (∀ p ∈ (specFieldEntries nm f).map Prod.fst, lookupKV M p = none) →
        _update_field M f nm = f) ∧
    (∀ fs : List SchemaField, ∀ nm,
        (∀ p ∈ (specFieldsEntries nm fs).map Prod.fst, lookupKV M p = none) →
        updateNestedFields M nm fs = fs) := by
  apply schema_mutual_induction
    (fun f => ∀ nm, (∀ p ∈ (specFieldEntries nm f).map Prod.fst, lookupKV M p = none) →
      _update_field M f nm = f)
    (fun fs => ∀ nm, (∀ p ∈ (specFieldsEntries nm fs).map Prod.fst, lookupKV M p = none) →
      updateNestedFields M nm fs = fs)
  · intro n t m d fs hq nm hnone
    have h1 : lookupKV M nm = none := by
      apply hnone
      simp [specFieldEntries]
    have h2 : updateNestedFields M nm fs = fs := by
      apply hq
      intro p hp
      apply hnone
      simp only [specFieldEntries, List.map_cons, List.mem_cons]
      exact Or.inr hp
    simp [_update_field, h1, h2]
  · intro nm hnone
    rfl
  · intro f fs hp hq nm hnone
    simp only [updateNestedFields]
    congr 1
    · apply hp
      intro p hpmem
      apply hnone
      simp only [specFieldsEntries, List.map_append, List.mem_append]
      exact Or.inl hpmem
    · apply hq
      intro p hpmem
      apply hnone
      simp only [specFieldsEntries, List.map_append, List.mem_append]
      exact Or.inr hpmem

theorem update_field_congr (M1 M2 : List (String × String)) :
    (∀ f : SchemaField, ∀ nm,
        (∀ p ∈ (specFieldEntries nm f).map Prod.fst, lookupKV M1 p = lookupKV M2 p) →
        _update_field M1 f nm = _update_field M2 f nm) ∧
    (∀ fs : List SchemaField, ∀ nm,
        (∀ p ∈ (specFieldsEntries nm fs).map Prod.fst, lookupKV M1 p = lookupKV M2 p) →
        updateNestedFields M1 nm fs = updateNestedFields M2 nm fs) := by
  apply schema_mutual_induction
    (fun f => ∀ nm,
      (∀ p ∈ (specFieldEntries nm f).map Prod.fst, lookupKV M1 p = lookupKV M2 p) →
      _update_field M1 f nm = _update_field M2 f nm)
    (fun fs => ∀ nm,
      (∀ p ∈ (specFieldsEntries nm fs).map Prod.fst, lookupKV M1 p = lookupKV M2 p) →
      updateNestedFields M1 nm fs = updateNestedFields M2 nm fs)
  · intro n t m d fs hq nm hsame
    have h1 : lookupKV M1 nm = lookupKV M2 nm := by
      apply hsame
      simp [specFieldEntries]
    have h2 : updateNestedFields M1 nm fs = updateNestedFields M2 nm fs := by
      apply hq
      intro p hp
      apply hsame
      simp only [specFieldEntries, List.map_cons, List.mem_cons]
      exact Or.inr hp
    simp [_update_field, h1, h2]
  · intro nm hsame
    rfl
  · intro f fs hp hq nm hsame
    simp only [updateNestedFields]
    congr 1
    · apply hp
      intro p hpmem
      apply hsame
      simp only [specFieldsEntries, List.map_append, List.mem_append]
      exact Or.inl hpmem
    · apply hq
      intro p hpmem
      apply hsame
      simp only [specFieldsEntries, List.map_append, List.mem_append]
      exact Or.inr hpmem

theorem get_new_schema_id_of_none (T : List SchemaField) (M : List (String × String))
    (hnone : ∀ p ∈ schemaPaths T, lookupKV M p = none) : _get_new_schema T M = T := by
  induction T with
  | nil => rfl
  | cons f rest ih =>
      simp only [_get_new_schema, List.map_cons]
      have hhead : _update_field M f f.name = f := by
        apply (update_field_id_of_none M).1
        intro p hp
        apply hnone
        simp only [schemaPaths, specSchemaEntries, List.map_append, List.mem_append]
        exact Or.inl hp
      rw [hhead]
      congr 1
      apply ih
      intro p hp
      apply hnone
      simp only [schemaPaths, specSchemaEntries, List.map_append, List.mem_append]
      exact Or.inr hp

theorem get_new_schema_congr (T : List SchemaField) (M1 M2 : List (String × String))
    (hsame : ∀ p ∈ schemaPaths T, lookupKV M1 p = lookupKV M2 p) :
    _get_new_schema T M1 = _get_new_schema T M2 := by
  induction T with
  | nil => rfl
  | cons f rest ih =>
      simp only [_get_new_schema, List.map_cons]
      congr 1
      · apply (update_field_congr M1 M2).1
        intro p hp
        apply hsame
        simp only [schemaPaths, specSchemaEntries, List.map_append, List.mem_append]
        exact Or.inl hp
      · apply ih
        intro p hp
        apply hsame
        simp only [schemaPaths, specSchemaEntries, List.map_append, List.mem_append]
        exact Or.inr hp

theorem lookupKV_filter_paths (M : List (String × String)) (paths : List String) (k : String)
    (hk : k ∈ paths) :
    lookupKV (M.filter (fun e => decide (e.1 ∈ paths))) k = lookupKV M k := by
  induction M with
  | nil => rfl
  | cons p rest ih =>
      cases hc : (decide (p.1 ∈ paths)) with
      | true =>
          rw [List.filter_cons_of_pos (by simpa using hc)]
          cases hpk : (p.1 == k) with
          | true => simp only [lookupKV, List.find?_cons, hpk]
          | false =>
              simp only [lookupKV, List.find?_cons, hpk]
              exact ih
      | false =>
          rw [List.filter_cons_of_neg (by simpa using hc)]
          have hne : (p.1 == k) = false := by
            cases hbe : (p.1 == k) with
            | false => rfl
            | true =>
                simp only [beq_iff_eq] at hbe
                rw [hbe] at hc
                simp [hk] at hc
          simp only [lookupKV, List.find?_cons, hne]
          exact ih

/-- C2: for every target FieldTree T and every description mapping M,
merge(T, M) has exactly the same field count, field order, nesting
structure, and per-field name, type, and mode as T; only description
values may differ.  Stated as: erasing every description from the merged
schema gives the same tree as erasing every description from T. -/
theorem merge_preserves_shape (T : List SchemaField) (M : List (String × String)) :
    eraseDescriptions (_get_new_schema T M) = eraseDescriptions T := by
  induction T with
  | nil => rfl
  | cons f rest ih =>
      show eraseDescription (_update_field M f f.name) :: eraseDescriptions (_get_new_schema rest M)
          = eraseDescription f :: eraseDescriptions rest
      rw [(erase_update M).1 f f.name, ih]

/-- C10: merge is idempotent: applying the same description mapping a
second time changes nothing. -/
theorem merge_idempotent (T : List SchemaField) (M : List (String × String)) :
    _get_new_schema (_get_new_schema T M) M = _get_new_schema T M := by
  induction T with
  | nil => rfl
  | cons f rest ih =>
      show _update_field M (_update_field M f f.name) (_update_field M f f.name).name
            :: _get_new_schema (_get_new_schema rest M) M
          = _update_field M f f.name :: _get_new_schema rest M
      rw [name_update_field, (update_field_idem M).1 f f.name, ih]

/-- C5: for every FieldTree T and every description mapping M such that no
key of M equals the qualified path of any field in T (in particular the
empty mapping), merge(T, M) is deep-equal to T. -/
theorem merge_non_destructive (T : List SchemaField) (M : List (String × String))
    (h : ∀ k ∈ M.map Prod.fst, k ∉ schemaPaths T) : _get_new_schema T M = T := by
  apply get_new_schema_id_of_none
  intro p hp
  cases hl : lookupKV M p with
  | none => rfl
  | some v => exact absurd hp (h p (mem_of_lookupKV_some M p v hl))

theorem merge_non_destructive_witness :
    (∀ k ∈ ([("zz", "d1"), ("a.b.c", "d2")] : List (String × String)).map Prod.fst,
        k ∉ schemaPaths [SchemaField.mk "a" "RECORD" "NULLABLE" "da"
          [SchemaField.mk "b" "STRING" "NULLABLE" "" []]]) ∧
    _get_new_schema
        [SchemaField.mk "a" "RECORD" "NULLABLE" "da"
          [SchemaField.mk "b" "STRING" "NULLABLE" "" []]]
        [("zz", "d1"), ("a.b.c", "d2")] =
      [SchemaField.mk "a" "RECORD" "NULLABLE" "da"
        [SchemaField.mk "b" "STRING" "NULLABLE" "" []]] :=
  ⟨by decide, merge_non_destructive _ _ (by decide)⟩

/-- C9: merge is total and silently ignores every mapping entry whose path
matches no field of the target: dropping all such entries from M leaves
the result unchanged (partial overlap in either direction is handled,
with no error and no warning; totality is intrinsic to the function). -/
theorem merge_ignores_unmatched_paths (T : List SchemaField) (M : List (String × String)) :
    _get_new_schema T M =
      _get_new_schema T (M.filter (fun e => decide (e.1 ∈ schemaPaths T))) := by
  apply get_new_schema_congr
  intro p hp
  exact (lookupKV_filter_paths M (schemaPaths T) p hp).symm

/-- C3: for every field of T at qualified path P, if P is absent from M or
M[P] is the empty string, the field at path P in merge(T, M) keeps its
original description unchanged; an empty mapping value never clears an
existing description. -/
theorem merge_keeps_description (T : List SchemaField) (M : List (String × String))
    (chain : List String) (f : SchemaField)
    (hf : findField T chain = some f)
    (hv : lookupKV M (joinPath chain) = none ∨ lookupKV M (joinPath chain) = some "") :
    (findField (_get_new_schema T M) chain).map SchemaField.description =
      some f.description := by
  rw [findField_get_new_schema, hf]
  cases f with
  | mk n t m d fs =>
      cases hv with
      | inl h => simp [_update_field, h, SchemaField.description]
      | inr h => simp [_update_field, h, SchemaField.description]

theorem merge_keeps_description_witness :
    findField [SchemaField.mk "a" "STRING" "NULLABLE" "keep" []] ["a"] =
        some (SchemaField.mk "a" "STRING" "NULLABLE" "keep" []) ∧
    (lookupKV [("a", "")] (joinPath ["a"]) = none ∨
      lookupKV [("a", "")] (joinPath ["a"]) = some "") ∧
    (findField (_get_new_schema [SchemaField.mk "a" "STRING" "NULLABLE" "keep" []]
        [("a", "")]) ["a"]).map SchemaField.description = some "keep" :=
  ⟨rfl, Or.inr rfl,
    merge_keeps_description [SchemaField.mk "a" "STRING" "NULLABLE" "keep" []] [("a", "")]
      ["a"] (SchemaField.mk "a" "STRING" "NULLABLE" "keep" []) rfl (Or.inr rfl)⟩

/-- C1 counterexample: the claim also asserts that the children of the
field at path P are identical to those of the original field.  With
target [a(RECORD, children=[b(desc="")])] and mapping
[a ↦ "x", a.b ↦ "y"], the path "a" has the non-empty value "x", yet the
child of the merged field at "a" has description "y" while the original
child has description "": the children are not identical. -/
theorem merge_overwrite_children_not_identical :
    lookupKV [("a", "x"), ("a.b", "y")] "a" = some "x" ∧ ("x" : String) ≠ "" ∧
    (findField [SchemaField.mk "a" "RECORD" "NULLABLE" ""
        [SchemaField.mk "b" "STRING" "NULLABLE" "" []]] ["a"]).map
        (fun f => f.fields.map SchemaField.description) = some [""] ∧
    (findField (_get_new_schema
        [SchemaField.mk "a" "RECORD" "NULLABLE" ""
          [SchemaField.mk "b" "STRING" "NULLABLE" "" []]]
        [("a", "x"), ("a.b", "y")]) ["a"]).map
        (fun f => f.fields.map SchemaField.description) = some ["y"] :=
  ⟨rfl, by decide, rfl, rfl⟩

/-- C1 (amended): for every field of T at qualified path P such that P is a
key of M and M[P] is a non-empty string, the field at path P in
merge(T, M) has description equal to M[P] and the same name, type and
mode as the original field, and its children are the original children
with the same merge rule applied recursively (identical whenever M has no
non-empty entry for a strict descendant path of P). -/
theorem merge_overwrite_field (T : List SchemaField) (M : List (String × String))
    (chain : List String) (f : SchemaField) (v : String)
    (hf : findField T chain = some f)
    (hv : lookupKV M (joinPath chain) = some v)
    (hne : v ≠ "") :
    findField (_get_new_schema T M) chain =
      some (SchemaField.mk f.name f.field_type f.mode v
        (updateNestedFields M (joinPath chain) f.fields)) := by
  rw [findField_get_new_schema, hf]
  cases f with
  | mk n t m d fs =>
      simp [_update_field, hv, hne, SchemaField.name, SchemaField.field_type,
        SchemaField.mode, SchemaField.fields]

theorem merge_overwrite_field_witness :
    findField [SchemaField.mk "a" "RECORD" "NULLABLE" ""
        [SchemaField.mk "b" "STRING" "NULLABLE" "db" []]] ["a"] =
      some (SchemaField.mk "a" "RECORD" "NULLABLE" ""
        [SchemaField.mk "b" "STRING" "NULLABLE" "db" []]) ∧
    lookupKV [("a", "x")] (joinPath ["a"]) = some "x" ∧ ("x" : String) ≠ "" ∧
    findField (_get_new_schema
        [SchemaField.mk "a" "RECORD" "NULLABLE" ""
          [SchemaField.mk "b" "STRING" "NULLABLE" "db" []]] [("a", "x")]) ["a"] =
      some (SchemaField.mk "a" "RECORD" "NULLABLE" "x"
        (updateNestedFields [("a", "x")] (joinPath ["a"])
          [SchemaField.mk "b" "STRING" "NULLABLE" "db" []])) :=
  ⟨rfl, rfl, by decide,
    merge_overwrite_field
      [SchemaField.mk "a" "RECORD" "NULLABLE" ""
        [SchemaField.mk "b" "STRING" "NULLABLE" "db" []]]
      [("a", "x")] ["a"]
      (SchemaField.mk "a" "RECORD" "NULLABLE" ""
        [SchemaField.mk "b" "STRING" "NULLABLE" "db" []]) "x" rfl rfl (by decide)⟩

theorem specFieldEntries_expand (nm : String) (f : SchemaField) :
    specFieldEntries nm f = (nm, f.description) :: specFieldsEntries nm f.fields := by
  cases f with
  | mk n t m d fs => rfl

theorem size_eq_one_add (f : SchemaField) : f.size = 1 + sizeFields f.fields := by
  cases f with
  | mk n t m d fs => rfl

theorem size_pos (f : SchemaField) : 1 ≤ f.size := by
  rw [size_eq_one_add]
  exact Nat.le_add_right 1 (sizeFields f.fields)

/-- Entries contributed by a pending stack of the flattening loop. -/
def stackEntries : List (String × SchemaField) → List (String × String)
  | [] => []
  | (n, f) :: rest => specFieldEntries n f ++ stackEntries rest

theorem stackEntries_append (l l' : List (String × SchemaField)) :
    stackEntries (l ++ l') = stackEntries l ++ stackEntries l' := by
  induction l with
  | nil => rfl
  | cons p rest ih =>
      cases p with
      | mk n f => simp [stackEntries, ih]

theorem stackEntries_map_children (pre : String) (fs : List SchemaField) :
    stackEntries (fs.map (fun nf => (pre ++ "." ++ nf.name, nf))) =
      specFieldsEntries pre fs := by
  induction fs with
  | nil => rfl
  | cons nf rest ih => simp [stackEntries, specFieldsEntries, ih]

theorem stackEntries_init (schema : List SchemaField) :
    stackEntries (schema.map (fun c => (c.name, c))) = specSchemaEntries schema := by
  induction schema with
  | nil => rfl
  | cons f rest ih => simp [stackEntries, specSchemaEntries, ih]

theorem processFields_perm_aux :
    ∀ (bound : Nat) (stack : List (String × SchemaField)) (descs : List (String × String)),
      stackSize stack ≤ bound →
      ((descs ++ stackEntries stack).map Prod.fst).Nodup →
      (processFields stack descs).Perm (descs ++ stackEntries stack) := by
  intro bound
  induction bound with
  | zero =>
      intro stack descs hle hnd
      cases stack with
      | nil =>
          rw [processFields_nil]
          simp [stackEntries]
      | cons p rest =>
          exfalso
          have h1 : 1 ≤ p.2.size := size_pos p.2
          simp only [stackSize] at hle
          omega
  | succ bound ih =>
      intro stack descs hle hnd
      cases hlast : stack.getLast? with
      | none =>
          have hnil : stack = [] := by
            cases stack with
            | nil => rfl
            | cons p rest =>
                have hne : p :: rest ≠ [] := by simp
                rw [List.getLast?_eq_getLast _ hne] at hlast
                simp at hlast
          subst hnil
          rw [processFields_nil]
          simp [stackEntries]
      | some field =>
          obtain ⟨name, f⟩ := field
          have hne : stack ≠ [] := by
            intro hn; rw [hn] at hlast; simp at hlast
          have hdecomp : stack.dropLast ++ [(name, f)] = stack := by
            have h1 := List.dropLast_append_getLast hne
            have h2 : stack.getLast hne = (name, f) := by
              have hq := List.getLast?_eq_getLast stack hne
              rw [hq] at hlast
              exact Option.some.inj hlast
            rw [h2] at h1
            exact h1
          have hentries : stackEntries stack =
              stackEntries stack.dropLast ++
                ((name, f.description) :: specFieldsEntries name f.fields) := by
            conv_lhs => rw [← hdecomp]
            rw [stackEntries_append]
            simp [stackEntries, specFieldEntries_expand]
          have hnewentries :
              stackEntries (stack.dropLast ++
                  f.fields.map (fun nf => (name ++ "." ++ nf.name, nf))) =
                stackEntries stack.dropLast ++ specFieldsEntries name f.fields := by
            rw [stackEntries_append, stackEntries_map_children]
          have hname_not : name ∉ descs.map Prod.fst := by
            rw [hentries] at hnd
            simp only [List.map_append, List.map_cons] at hnd
            rw [List.nodup_append] at hnd
            intro hmem
            exact hnd.2.2 hmem (by simp)
          have hinsert : insertKV descs name f.description = descs ++ [(name, f.description)] :=
            insertKV_not_mem descs name f.description hname_not
          have hsize : stackSize (stack.dropLast ++
              f.fields.map (fun nf => (name ++ "." ++ nf.name, nf))) ≤ bound := by
            have h1 : stackSize stack = stackSize stack.dropLast + f.size := by
              conv_lhs => rw [← hdecomp]
              rw [stackSize_append]
              simp [stackSize]
            have h2 : stackSize (stack.dropLast ++
                f.fields.map (fun nf => (name ++ "." ++ nf.name, nf))) =
                stackSize stack.dropLast + sizeFields f.fields := by
              rw [stackSize_append, stackSize_map]
            have h3 := size_eq_one_add f
            omega
          have hpermkeys : ((descs ++ [(name, f.description)]) ++
              stackEntries (stack.dropLast ++
                f.fields.map (fun nf => (name ++ "." ++ nf.name, nf)))).Perm
              (descs ++ stackEntries stack) := by
            rw [hentries, hnewentries, List.append_assoc]
            simp only [List.singleton_append]
            exact List.Perm.append_left descs List.perm_middle.symm
          have hnd2 : (((descs ++ [(name, f.description)]) ++
              stackEntries (stack.dropLast ++
                f.fields.map (fun nf => (name ++ "." ++ nf.name, nf)))).map Prod.fst).Nodup :=
            (hpermkeys.symm.map Prod.fst).nodup hnd
          rw [processFields_pop stack descs name f hlast, hinsert]
          exact (ih _ (descs ++ [(name, f.description)]) hsize hnd2).trans hpermkeys

/-- C4: for every FieldTree T whose qualified paths are pairwise distinct
(the well-formedness the spec data model asserts), flatten(T) contains
exactly one entry for every field at every nesting depth of T, keyed by
that field's dotted qualified path and valued by that field's raw
description: it is a permutation of the spec-side entry list. -/
theorem flatten_complete (T : List SchemaField) (h : (schemaPaths T).Nodup) :
    (_get_descriptions_from_schema T).Perm (specSchemaEntries T) := by
  have hnd : (([] ++ stackEntries (T.map (fun c : SchemaField => (c.name, c)))).map
      Prod.fst).Nodup := by
    rw [List.nil_append, stackEntries_init]
    exact h
  have hperm := processFields_perm_aux (stackSize (T.map (fun c : SchemaField => (c.name, c))))
    (T.map (fun c : SchemaField => (c.name, c))) [] le_rfl hnd
  rw [List.nil_append, stackEntries_init] at hperm
  exact hperm

theorem flatten_complete_witness :
    (schemaPaths [SchemaField.mk "a" "RECORD" "NULLABLE" "da"
        [SchemaField.mk "b" "STRING" "NULLABLE" "db" [],
          SchemaField.mk "c" "RECORD" "NULLABLE" ""
            [SchemaField.mk "d" "INTEGER" "NULLABLE" "dd" []]],
      SchemaField.mk "e" "STRING" "NULLABLE" "de" []]).Nodup ∧
    (_get_descriptions_from_schema [SchemaField.mk "a" "RECORD" "NULLABLE" "da"
        [SchemaField.mk "b" "STRING" "NULLABLE" "db" [],
          SchemaField.mk "c" "RECORD" "NULLABLE" ""
            [SchemaField.mk "d" "INTEGER" "NULLABLE" "dd" []]],
      SchemaField.mk "e" "STRING" "NULLABLE" "de" []]).Perm
      (specSchemaEntries [SchemaField.mk "a" "RECORD" "NULLABLE" "da"
        [SchemaField.mk "b" "STRING" "NULLABLE" "db" [],
          SchemaField.mk "c" "RECORD" "NULLABLE" ""
            [SchemaField.mk "d" "INTEGER" "NULLABLE" "dd" []]],
      SchemaField.mk "e" "STRING" "NULLABLE" "de" []]) :=
  ⟨by decide, flatten_complete _ (by decide)⟩

theorem nodup_keys_foldl_insert (rows : List (String × String)) :
    ∀ m : List (String × String), (m.map Prod.fst).Nodup →
      ((rows.foldl (fun acc row => insertKV acc row.1 row.2) m).map Prod.fst).Nodup := by
  induction rows with
  | nil => intro m h; exact h
  | cons r rest ih =>
      intro m h
      exact ih (insertKV m r.1 r.2) (nodup_keys_insertKV m r.1 r.2 h)

theorem mem_keys_foldl_insert (rows : List (String × String)) :
    ∀ (m : List (String × String)) (k : String),
      k ∈ (rows.foldl (fun acc row => insertKV acc row.1 row.2) m).map Prod.fst ↔
        k ∈ m.map Prod.fst ∨ k ∈ rows.map Prod.fst := by
  induction rows with
  | nil => intro m k; simp
  | cons r rest ih =>
      intro m k
      simp only [List.foldl_cons, List.map_cons, List.mem_cons]
      rw [ih, mem_keys_insertKV]
      tauto

/-- C6 counterexample: the upload path performs no header skipping: with a
file whose first row is the header ("field_path", "field_description")
followed by one data row ("a", "da"), the dictionary comprehension of
`upload_fields_descriptions_from_csv` produces two entries, one of them
derived from the header row, not exactly one entry per data row. -/
theorem upload_header_row_not_discarded :
    descriptionsFromCsvRows [("field_path", "field_description"), ("a", "da")] =
      [("field_path", "field_description"), ("a", "da")] ∧
    lookupKV (descriptionsFromCsvRows [("field_path", "field_description"), ("a", "da")])
      "field_path" = some "field_description" :=
  ⟨rfl, rfl⟩

/-- C6 (amended): in upload mode no row of the CSV file is discarded: the
description mapping handed to the merge step has pairwise-distinct keys
and contains an entry for a path exactly when some row of the file — the
first row included — has that path in its first column. -/
theorem upload_mapping_from_all_rows (rows : List (String × String)) :
    ((descriptionsFromCsvRows rows).map Prod.fst).Nodup ∧
    ∀ k, (lookupKV (descriptionsFromCsvRows rows) k).isSome = true ↔
      k ∈ rows.map Prod.fst := by
  constructor
  · exact nodup_keys_foldl_insert rows [] (by simp)
  · intro k
    rw [lookupKV_isSome_iff]
    unfold descriptionsFromCsvRows
    rw [mem_keys_foldl_insert]
    simp

/-- C7: for every successful copy or upload operation, persist
(`update_table`) is invoked exactly once, and the attribute list it is
asked to mutate is exactly `['schema']`: the persist calls of the trace
are exactly one `update_table` call with attrs `["schema"]`. -/
theorem persist_called_once_with_schema_only (c : Client) (src tgt : String)
    (rows : List (String × String)) :
    ((copy_field_descriptions c src tgt).1 = Except.ok () →
      ∃ t, (copy_field_descriptions c src tgt).2.filter isUpdateCall =
        [ApiCall.update_table t ["schema"]]) ∧
    ((upload_fields_descriptions_from_csv c rows tgt).1 = Except.ok () →
      ∃ t, (upload_fields_descriptions_from_csv c rows tgt).2.filter isUpdateCall =
        [ApiCall.update_table t ["schema"]]) := by
  constructor
  · intro hok
    cases hsrc : c.tables src with
    | none => simp [copy_field_descriptions, hsrc] at hok
    | some s =>
        simp only [copy_field_descriptions, hsrc] at hok ⊢
        cases htgt : c.tables tgt with
        | none => simp [_update_table, htgt] at hok
        | some t =>
            simp only [_update_table, htgt]
            refine ⟨Table.mk t.table_id
              (_get_new_schema t.schema (_get_descriptions_from_schema s.schema)), ?_⟩
            simp [isUpdateCall]
  · intro hok
    cases htgt : c.tables tgt with
    | none => simp [upload_fields_descriptions_from_csv, _update_table, htgt] at hok
    | some t =>
        simp only [upload_fields_descriptions_from_csv, _update_table, htgt]
        refine ⟨Table.mk t.table_id
          (_get_new_schema t.schema (descriptionsFromCsvRows rows)), ?_⟩
        simp [isUpdateCall]

theorem persist_called_once_witness :
    (∃ t, (copy_field_descriptions (Client.mk (fun id => some (Table.mk id []))) "s" "t").2.filter
        isUpdateCall = [ApiCall.update_table t ["schema"]]) ∧
    (∃ t, (upload_fields_descriptions_from_csv (Client.mk (fun id => some (Table.mk id [])))
        [("a", "da")] "t").2.filter isUpdateCall = [ApiCall.update_table t ["schema"]]) :=
  ⟨(persist_called_once_with_schema_only (Client.mk (fun id => some (Table.mk id [])))
      "s" "t" [("a", "da")]).1 rfl,
    (persist_called_once_with_schema_only (Client.mk (fun id => some (Table.mk id [])))
      "s" "t" [("a", "da")]).2 rfl⟩

/-- C8: when a fetch of the source or target table fails, the copy or
upload operation aborts with that error (the error names a table id whose
fetch returned NotFound), no persist call appears in the trace, and the
client's stored state after the trace is exactly what it was before the
call. -/
theorem fetch_failure_aborts_before_persist (c : Client) (src tgt : String)
    (rows : List (String × String)) (e1 e2 : String) :
    ((copy_field_descriptions c src tgt).1 = Except.error e1 →
      (copy_field_descriptions c src tgt).2.filter isUpdateCall = [] ∧
      applyCalls c (copy_field_descriptions c src tgt).2 = c ∧
      c.tables e1 = none) ∧
    ((upload_fields_descriptions_from_csv c rows tgt).1 = Except.error e2 →
      (upload_fields_descriptions_from_csv c rows tgt).2.filter isUpdateCall = [] ∧
      applyCalls c (upload_fields_descriptions_from_csv c rows tgt).2 = c ∧
      c.tables e2 = none) := by
  constructor
  · intro herr
    cases hsrc : c.tables src with
    | none =>
        simp only [copy_field_descriptions, hsrc] at herr ⊢
        have he : src = e1 := by
          injection herr
        refine ⟨by simp [isUpdateCall], by simp [applyCalls], ?_⟩
        rw [← he]
        exact hsrc
    | some s =>
        simp only [copy_field_descriptions, hsrc] at herr ⊢
        cases htgt : c.tables tgt with
        | none =>
            simp only [_update_table, htgt] at herr ⊢
            have he : tgt = e1 := by
              injection herr
            refine ⟨by simp [isUpdateCall], by simp [applyCalls], ?_⟩
            rw [← he]
            exact htgt
        | some t => simp [_update_table, htgt] at herr
  · intro herr
    cases htgt : c.tables tgt with
    | none =>
        simp only [upload_fields_descriptions_from_csv, _update_table, htgt] at herr ⊢
        have he : tgt = e2 := by
          injection herr
        refine ⟨by simp [isUpdateCall], by simp [applyCalls], ?_⟩
        rw [← he]
        exact htgt
    | some t => simp [upload_fields_descriptions_from_csv, _update_table, htgt] at herr

theorem fetch_failure_witness :
    ((copy_field_descriptions (Client.mk (fun _ => none)) "s" "t").2.filter isUpdateCall = [] ∧
      applyCalls (Client.mk (fun _ => none))
        (copy_field_descriptions (Client.mk (fun _ => none)) "s" "t").2 =
        Client.mk (fun _ => none) ∧
      (Client.mk (fun _ => none)).tables "s" = none) ∧
    ((upload_fields_descriptions_from_csv (Client.mk (fun _ => none)) [("a", "da")] "t").2.filter
        isUpdateCall = [] ∧
      applyCalls (Client.mk (fun _ => none))
        (upload_fields_descriptions_from_csv (Client.mk (fun _ => none)) [("a", "da")] "t").2 =
        Client.mk (fun _ => none) ∧
      (Client.mk (fun _ => none)).tables "t" = none) :=
  ⟨(fetch_failure_aborts_before_persist (Client.mk (fun _ => none)) "s" "t"
      [("a", "da")] "s" "t").1 rfl,
    (fetch_failure_aborts_before_persist (Client.mk (fun _ => none)) "s" "t"
      [("a", "da")] "t" "t").2 rfl⟩
